import Mathlib

/-!
Verification development for the `notlex` NFA-based regex engine
(`src/lib.rs`). The Rust code is shallowly embedded: `HashSet<usize>`
becomes `Finset Nat`, `HashMap<usize, Vec<(CharSet, usize)>>` becomes an
association list with unique keys (the builder only ever inserts through
`add_transition`, which keeps keys unique, and every read goes through a
per-key lookup, so the map's iteration order is irrelevant to the set-valued
results), and the mutating methods become state-passing functions.
-/

namespace Notlex

/-- Embeds Rust `enum CharSet` (src/lib.rs). `Union` keeps its list of
nested character sets. -/
inductive CharSet where
  | SingleChar (c : Char)
  | Range (lo hi : Char)
  | AnyChar
  | Diff (incl excl : CharSet)
  | Union (css : List CharSet)
  | Epsilon

mutual

/-- Embeds `CharSet::test` (src/lib.rs): `Range` is inclusive on both ends,
`Diff` is include-and-not-exclude, `Union` returns true on the first member
that matches, and `Epsilon` returns `true` for every character. -/
def CharSet.test : CharSet → Char → Bool
  | .SingleChar c1, c => c1 == c
  | .Range lo hi, c => decide (lo ≤ c) && decide (c ≤ hi)
  | .AnyChar, _ => true
  | .Diff incl excl, c => incl.test c && !(excl.test c)
  | .Union css, c => CharSet.testAny css c
  | .Epsilon, _ => true

/-- The `for cs in css { if cs.test(c) { return true } }` loop of the
`Union` arm of `CharSet::test`. -/
def CharSet.testAny : List CharSet → Char → Bool
  | [], _ => false
  | cs :: rest, c => cs.test c || CharSet.testAny rest c

end

/-- Embeds the transition map `HashMap<usize, Vec<(CharSet, usize)>>` as an
association list with unique keys. -/
abbrev TransTable := List (Nat × List (CharSet × Nat))

/-- Embeds `HashMap::get` on the transition map. -/
def lookupTrans : TransTable → Nat → Option (List (CharSet × Nat))
  | [], _ => none
  | (k, v) :: rest, s => if k = s then some v else lookupTrans rest s

/-- The transition list of a state, or `[]` when the map has no entry
(the `if let Some(ts)` pattern in `step` and `take_epsilons`). -/
def transList (tbl : TransTable) (s : Nat) : List (CharSet × Nat) :=
  (lookupTrans tbl s).getD []

/-- Embeds `NFABuilder::add_transition` (src/lib.rs): push onto an occupied
entry's vector, or insert a fresh one-element vector. -/
def addTransition : TransTable → Nat → CharSet → Nat → TransTable
  | [], f, cs, t => [(f, [(cs, t)])]
  | (k, v) :: rest, f, cs, t =>
    if k = f then (k, v ++ [(cs, t)]) :: rest
    else (k, v) :: addTransition rest f cs t

/-- Every transition target occurring anywhere in the table. Used only to
bound the fuel of the epsilon-closure iteration. -/
def allTargets (tbl : TransTable) : Finset Nat :=
  (tbl.map (fun kv => kv.2.map Prod.snd)).flatten.toFinset

/-- Recognizes the `CharSet::Epsilon` constructor, as the
`match cs { &CharSet::Epsilon => .., _ => {} }` in `take_epsilons` does. -/
def CharSet.isEps : CharSet → Bool
  | .Epsilon => true
  | _ => false

/-- One pass of `NFA::step`'s character-consuming loop: all targets `t` of
transitions `(cs, t)` out of a live state with `cs.test(c)` true. Note the
Rust loop tests every transition, `Epsilon`-labeled ones included. -/
def stepChar (tbl : TransTable) (cur : Finset Nat) (c : Char) : Finset Nat :=
  cur.biUnion (fun s =>
    (((transList tbl s).filter (fun p => p.1.test c)).map Prod.snd).toFinset)

/-- The states reachable from `cur` by one `Epsilon`-labeled transition:
one inner pass of `NFA::take_epsilons`. -/
def epsTargets (tbl : TransTable) (cur : Finset Nat) : Finset Nat :=
  cur.biUnion (fun s =>
    (((transList tbl s).filter (fun p => p.1.isEps)).map Prod.snd).toFinset)

/-- Embeds the loop of `NFA::take_epsilons`, made total with explicit fuel:
each pass collects the epsilon targets not yet live (`new_states`); if none,
stop, otherwise extend the live set and repeat. The Rust loop is unbounded;
`takeEpsilons` below supplies enough fuel to reach the same fixed point the
Rust loop terminates at. -/
def takeEpsilonsAux (tbl : TransTable) : Nat → Finset Nat → Finset Nat
  | 0, cur => cur
  | fuel + 1, cur =>
    let news := epsTargets tbl cur \ cur
    if news = ∅ then cur else takeEpsilonsAux tbl fuel (cur ∪ news)

/-- Embeds `NFA::take_epsilons` as a function of the live set: the fuel
`(allTargets tbl).card + 1` suffices because every productive pass adds at
least one yet-unseen transition target (proved in `takeEpsilonsAux_fix`). -/
def takeEpsilons (tbl : TransTable) (cur : Finset Nat) : Finset Nat :=
  takeEpsilonsAux tbl ((allTargets tbl).card + 1) cur

/-- Embeds `struct NFA` (src/lib.rs). -/
structure NFA where
  cur_states : Finset Nat
  transitions : TransTable
  accepting : Finset Nat

/-- Embeds `NFA::reset`: clear the live set, insert `0`, take epsilons. -/
def NFA.reset (n : NFA) : NFA :=
  { n with cur_states := takeEpsilons n.transitions {0} }

/-- Embeds `NFA::new`: starts from an empty live set and resets. -/
def NFA.new (tbl : TransTable) (acc : Finset Nat) : NFA :=
  NFA.reset { cur_states := ∅, transitions := tbl, accepting := acc }

/-- Embeds `NFA::step`: replace the live set by the `cs.test(c)`-matching
transition targets, then take epsilons. -/
def NFA.step (n : NFA) (c : Char) : NFA :=
  { n with
    cur_states := takeEpsilons n.transitions (stepChar n.transitions n.cur_states c) }

/-- Embeds `NFA::feed`, which just delegates to `step`. -/
def NFA.feed (n : NFA) (c : Char) : NFA := n.step c

/-- Embeds `NFA::check_accepting`: true iff some live state is accepting. -/
def NFA.checkAccepting (n : NFA) : Bool :=
  decide (∃ s ∈ n.cur_states, s ∈ n.accepting)

/-- Embeds `NFA::run`: step through the characters, then report acceptance.
The Rust method mutates `self`; here the final automaton state is returned
alongside the boolean. -/
def NFA.run (n : NFA) : List Char → Bool × NFA
  | [] => (n.checkAccepting, n)
  | c :: cs => (n.step c).run cs

/-- Follows the spec's words for `run` (claims about `run` vs `feed`):
calling `feed` on each character in order, with no reset anywhere. -/
def NFA.feedAll (n : NFA) (cs : List Char) : NFA :=
  cs.foldl NFA.feed n

abbrev CSet := CharSet

/-- Embeds Rust `enum Regex` (src/lib.rs). -/
inductive Regex where
  | Eps
  | CharSet (cs : CSet)
  | Seq (r1 r2 : Regex)
  | Or (r1 r2 : Regex)
  | Star (r : Regex)
  | Plus (r : Regex)
  | Ques (r : Regex)

/-- Embeds `struct NFABuilder`. -/
structure NFABuilder where
  next_state : Nat
  transitions : TransTable

/-- Embeds `NFABuilder::new_state`: return the counter, then bump it. -/
def newState (b : NFABuilder) : Nat × NFABuilder :=
  (b.next_state, { b with next_state := b.next_state + 1 })

/-- The `Regex::CharSet` arm of `add_regex`: for each current state,
allocate a fresh state, add a `cs`-labeled transition to it, and collect the
fresh states as the new frontier. -/
def addCharSetStates (cs : CSet) : List Nat → NFABuilder → List Nat × NFABuilder
  | [], b => ([], b)
  | s :: rest, b =>
    let ns := newState b
    let b2 := { ns.2 with transitions := addTransition ns.2.transitions s cs ns.1 }
    let res := addCharSetStates cs rest b2
    (ns.1 :: res.1, res.2)

/-- The loop of the `Regex::Star` arm of `add_regex`: an epsilon transition
from every exit state back to every entry state. -/
def addEpsBack (nexts curs : List Nat) (tbl : TransTable) : TransTable :=
  nexts.foldl
    (fun acc nf => curs.foldl (fun acc2 c => addTransition acc2 nf CharSet.Epsilon c) acc)
    tbl

/-- Embeds `NFABuilder::add_regex` (src/lib.rs), state-passing. The Rust
`Plus` arm calls `add_regex(&next_states, &Regex::Star(r.clone()))`; that
call is not structurally recursive, so the body of the `Star` arm is inlined
at `Plus` here, applied to the frontier produced by the mandatory first
build of `r` — the theorem for the `Plus`/`Seq-Star` equivalence proves this
agrees with the literal `Seq r (Star r)` composition. -/
def addRegex : NFABuilder → List Nat → Regex → List Nat × NFABuilder
  | b, cur, .Eps => (cur, b)
  | b, cur, .CharSet cs => addCharSetStates cs cur b
  | b, cur, .Seq r1 r2 =>
    let res1 := addRegex b cur r1
    addRegex res1.2 res1.1 r2
  | b, cur, .Or r1 r2 =>
    let res1 := addRegex b cur r1
    let res2 := addRegex res1.2 cur r2
    (res1.1 ++ res2.1, res2.2)
  | b, cur, .Star r =>
    let res := addRegex b cur r
    (cur, { res.2 with transitions := addEpsBack res.1 cur res.2.transitions })
  | b, cur, .Plus r =>
    let res1 := addRegex b cur r
    let res2 := addRegex res1.2 res1.1 r
    (res1.1, { res2.2 with transitions := addEpsBack res2.1 res1.1 res2.2.transitions })
  | b, cur, .Ques r =>
    let res := addRegex b cur r
    (cur ++ res.1, res.2)

/-- Embeds `NFABuilder::build`: counter starts at 1, empty table, frontier
`[0]`; the final frontier becomes the accepting set. -/
def NFABuilder.build (r : Regex) : NFA :=
  let res := addRegex { next_state := 1, transitions := [] } [0] r
  NFA.new res.2.transitions res.1.toFinset

/-- The regex of the repository's `regex_seq` test:
`Seq(CharSet('a'), Seq(CharSet('b'), CharSet('c')))`. -/
def seqABC : Regex :=
  .Seq (.CharSet (.SingleChar 'a')) (.Seq (.CharSet (.SingleChar 'b')) (.CharSet (.SingleChar 'c')))

/-- `Star(CharSet('a'))`, the automaton used to exhibit the epsilon-step
behavior of `NFA::step`. -/
def starA : Regex := .Star (.CharSet (.SingleChar 'a'))

/-- A transition table that is a pure mutual epsilon cycle between states
0 and 1. -/
def cycT : TransTable := [(0, [(CharSet.Epsilon, 1)]), (1, [(CharSet.Epsilon, 0)])]

/-- A successful `lookupTrans` returns an entry of the table. -/
lemma lookupTrans_mem {tbl : TransTable} {s : Nat} {l : List (CharSet × Nat)}
    (h : lookupTrans tbl s = some l) : (s, l) ∈ tbl := by
  induction tbl with
  | nil => simp [lookupTrans] at h
  | cons kv rest ih =>
    obtain ⟨k, v⟩ := kv
    rw [lookupTrans] at h
    split at h
    · obtain ⟨rfl, rfl⟩ : k = s ∧ v = l := by
        constructor
        · assumption
        · exact Option.some.inj h
      exact List.mem_cons_self _ _
    · exact List.mem_cons_of_mem _ (ih h)

/-- The target of any transition found via `transList` is a target of the
table. -/
lemma transList_snd_mem_allTargets {tbl : TransTable} {s : Nat}
    {p : CharSet × Nat} (hp : p ∈ transList tbl s) : p.2 ∈ allTargets tbl := by
  unfold transList at hp
  cases h : lookupTrans tbl s with
  | none => rw [h] at hp; simp at hp
  | some l =>
    rw [h] at hp
    simp only [Option.getD_some] at hp
    have hm := lookupTrans_mem h
    simp only [allTargets, List.mem_toFinset, List.mem_flatten, List.mem_map]
    exact ⟨l.map Prod.snd, ⟨(s, l), hm, rfl⟩, List.mem_map_of_mem _ hp⟩

/-- `epsTargets` is monotone in the live set. -/
lemma epsTargets_mono {tbl : TransTable} {s t : Finset Nat} (h : s ⊆ t) :
    epsTargets tbl s ⊆ epsTargets tbl t :=
  Finset.biUnion_subset_biUnion_of_subset_left _ h

/-- Every one-step epsilon target is a transition target of the table. -/
lemma epsTargets_subset_allTargets (tbl : TransTable) (s : Finset Nat) :
    epsTargets tbl s ⊆ allTargets tbl := by
  intro x hx
  simp only [epsTargets, Finset.mem_biUnion, List.mem_toFinset, List.mem_map,
    List.mem_filter] at hx
  obtain ⟨a, -, p, ⟨hp, -⟩, rfl⟩ := hx
  exact transList_snd_mem_allTargets hp

/-- The epsilon-closure loop never removes a live state. -/
lemma subset_takeEpsilonsAux (tbl : TransTable) :
    ∀ fuel cur, cur ⊆ takeEpsilonsAux tbl fuel cur := by
  intro fuel
  induction fuel with
  | zero => intro cur; simp [takeEpsilonsAux]
  | succ n ih =>
    intro cur
    rw [takeEpsilonsAux]
    by_cases h : epsTargets tbl cur \ cur = ∅
    · simp [h]
    · simp only [h, if_false]
      exact Finset.subset_union_left.trans (ih _)

/-- The epsilon-closure loop stays inside any closed superset of the
starting set. -/
lemma takeEpsilonsAux_subset_closed (tbl : TransTable) :
    ∀ fuel cur u, cur ⊆ u → epsTargets tbl u ⊆ u →
      takeEpsilonsAux tbl fuel cur ⊆ u := by
  intro fuel
  induction fuel with
  | zero => intro cur u hcu _; simpa [takeEpsilonsAux] using hcu
  | succ n ih =>
    intro cur u hcu hclosed
    rw [takeEpsilonsAux]
    by_cases h : epsTargets tbl cur \ cur = ∅
    · simpa [h] using hcu
    · simp only [h, if_false]
      refine ih _ u (Finset.union_subset hcu ?_) hclosed
      exact Finset.sdiff_subset.trans ((epsTargets_mono hcu).trans hclosed)

/-- With fuel exceeding the number of yet-unreached transition targets, the
epsilon-closure loop reaches an actual fixed point: the result is closed
under one-step epsilon transitions (so the Rust loop exits). -/
lemma takeEpsilonsAux_fix (tbl : TransTable) :
    ∀ fuel cur, (allTargets tbl \ cur).card < fuel →
      epsTargets tbl (takeEpsilonsAux tbl fuel cur) ⊆ takeEpsilonsAux tbl fuel cur := by
  intro fuel
  induction fuel with
  | zero => intro cur h; exact absurd h (Nat.not_lt_zero _)
  | succ n ih =>
    intro cur hcard
    rw [takeEpsilonsAux]
    by_cases h : epsTargets tbl cur \ cur = ∅
    · simpa [h] using Finset.sdiff_eq_empty_iff_subset.mp h
    · simp only [h, if_false]
      apply ih
      have hne : (epsTargets tbl cur \ cur).Nonempty :=
        Finset.nonempty_iff_ne_empty.mpr h
      have hsub : epsTargets tbl cur \ cur ⊆ allTargets tbl \ cur :=
        Finset.sdiff_subset_sdiff (epsTargets_subset_allTargets tbl cur)
          (subset_refl _)
      have hmono : allTargets tbl \ (cur ∪ (epsTargets tbl cur \ cur)) ⊆
          (allTargets tbl \ cur) \ (epsTargets tbl cur \ cur) := by
        intro x hx
        simp only [Finset.mem_sdiff, Finset.mem_union, not_or] at hx ⊢
        tauto
      have hlt : ((allTargets tbl \ cur) \ (epsTargets tbl cur \ cur)).card <
          (allTargets tbl \ cur).card :=
        Finset.card_lt_card (Finset.sdiff_ssubset hsub hne)
      have := Finset.card_le_card hmono
      omega

/-- The live set is contained in its epsilon closure. -/
lemma subset_takeEpsilons (tbl : TransTable) (s : Finset Nat) :
    s ⊆ takeEpsilons tbl s :=
  subset_takeEpsilonsAux tbl _ s

/-- The epsilon closure is closed under one-step epsilon transitions. -/
lemma takeEpsilons_closed (tbl : TransTable) (s : Finset Nat) :
    epsTargets tbl (takeEpsilons tbl s) ⊆ takeEpsilons tbl s := by
  apply takeEpsilonsAux_fix
  have h1 : (allTargets tbl \ s).card ≤ (allTargets tbl).card :=
    Finset.card_le_card Finset.sdiff_subset
  omega

/-- The epsilon closure is least among closed supersets of the start set. -/
lemma takeEpsilons_least (tbl : TransTable) (s u : Finset Nat)
    (hsu : s ⊆ u) (hu : epsTargets tbl u ⊆ u) : takeEpsilons tbl s ⊆ u :=
  takeEpsilonsAux_subset_closed tbl _ s u hsu hu

/-- `step`'s character pass finds no successor from an empty live set. -/
lemma stepChar_empty (tbl : TransTable) (c : Char) : stepChar tbl ∅ c = ∅ := by
  simp [stepChar]

/-- There are no one-step epsilon targets of the empty set. -/
lemma epsTargets_empty (tbl : TransTable) : epsTargets tbl ∅ = ∅ := by
  simp [epsTargets]

/-- The epsilon closure of the empty set is empty. -/
lemma takeEpsilons_empty (tbl : TransTable) : takeEpsilons tbl ∅ = ∅ := by
  unfold takeEpsilons
  rw [takeEpsilonsAux]
  simp [epsTargets_empty]

/-- Feeding any character to an automaton with an empty live set leaves the
live set empty. -/
lemma feed_cur_empty (n : NFA) (c : Char) (h : n.cur_states = ∅) :
    (n.feed c).cur_states = ∅ := by
  simp [NFA.feed, NFA.step, h, stepChar_empty, takeEpsilons_empty]

/-- An automaton with an empty live set is not accepting. -/
lemma checkAccepting_empty (n : NFA) (h : n.cur_states = ∅) :
    n.checkAccepting = false := by
  simp [NFA.checkAccepting, h]

/-- The state counter never decreases across the `CharSet` arm's loop. -/
lemma addCharSetStates_next_le (cs : CSet) :
    ∀ (cur : List Nat) (b : NFABuilder),
      b.next_state ≤ (addCharSetStates cs cur b).2.next_state := by
  intro cur
  induction cur with
  | nil => intro b; simp [addCharSetStates]
  | cons s rest ih =>
    intro b
    simp only [addCharSetStates, newState]
    exact le_trans (Nat.le_succ _)
      (ih { next_state := b.next_state + 1,
            transitions := addTransition b.transitions s cs b.next_state })

/-- Every frontier state produced by the `CharSet` arm is freshly allocated:
it lies in the interval of counters consumed by the arm. -/
lemma addCharSetStates_frontier (cs : CSet) :
    ∀ (cur : List Nat) (b : NFABuilder) (s : Nat),
      s ∈ (addCharSetStates cs cur b).1 →
        b.next_state ≤ s ∧ s < (addCharSetStates cs cur b).2.next_state := by
  intro cur
  induction cur with
  | nil => intro b s hs; simp [addCharSetStates] at hs
  | cons s0 rest ih =>
    intro b s hs
    simp only [addCharSetStates, newState, List.mem_cons] at hs ⊢
    rcases hs with rfl | hs
    · refine ⟨le_refl _, lt_of_lt_of_le (Nat.lt_succ_self _) ?_⟩
      exact addCharSetStates_next_le cs rest
        { next_state := b.next_state + 1,
          transitions := addTransition b.transitions s0 cs b.next_state }
    · obtain ⟨h1, h2⟩ := ih _ s hs
      exact ⟨le_trans (Nat.le_succ _) h1, h2⟩

/-- The `CharSet` arm maps a non-empty frontier to a non-empty frontier. -/
lemma addCharSetStates_ne_nil (cs : CSet) (cur : List Nat) (b : NFABuilder)
    (h : cur ≠ []) : (addCharSetStates cs cur b).1 ≠ [] := by
  cases cur with
  | nil => exact absurd rfl h
  | cons s rest => simp [addCharSetStates]

/-- The state counter never decreases across `add_regex`. -/
lemma addRegex_next_le :
    ∀ (r : Regex) (b : NFABuilder) (cur : List Nat),
      b.next_state ≤ (addRegex b cur r).2.next_state := by
  intro r
  induction r with
  | Eps => intro b cur; simp [addRegex]
  | CharSet cs => intro b cur; exact addCharSetStates_next_le cs cur b
  | Seq r1 r2 ih1 ih2 =>
    intro b cur
    exact le_trans (ih1 b cur) (ih2 _ _)
  | Or r1 r2 ih1 ih2 =>
    intro b cur
    exact le_trans (ih1 b cur) (ih2 _ _)
  | Star r ih => intro b cur; exact ih b cur
  | Plus r ih =>
    intro b cur
    exact le_trans (ih b cur) (ih _ _)
  | Ques r ih => intro b cur; exact ih b cur

/-- Every state `add_regex` returns in its frontier is either an input
frontier state or one of the identifiers freshly allocated during this call
(in `[b.next_state, result.next_state)`): identifiers are never reused. -/
lemma addRegex_frontier_range :
    ∀ (r : Regex) (b : NFABuilder) (cur : List Nat) (s : Nat),
      s ∈ (addRegex b cur r).1 →
        s ∈ cur ∨ (b.next_state ≤ s ∧ s < (addRegex b cur r).2.next_state) := by
  intro r
  induction r with
  | Eps => intro b cur s hs; exact Or.inl hs
  | CharSet cs =>
    intro b cur s hs
    exact Or.inr (addCharSetStates_frontier cs cur b s hs)
  | Seq r1 r2 ih1 ih2 =>
    intro b cur s hs
    rcases ih2 _ _ s hs with h | ⟨h1, h2⟩
    · rcases ih1 b cur s h with h' | ⟨h1', h2'⟩
      · exact Or.inl h'
      · exact Or.inr ⟨h1', lt_of_lt_of_le h2' (addRegex_next_le r2 _ _)⟩
    · exact Or.inr ⟨le_trans (addRegex_next_le r1 b cur) h1, h2⟩
  | Or r1 r2 ih1 ih2 =>
    intro b cur s hs
    simp only [addRegex, List.mem_append] at hs ⊢
    rcases hs with hs | hs
    · rcases ih1 b cur s hs with h' | ⟨h1', h2'⟩
      · exact Or.inl h'
      · exact Or.inr ⟨h1', lt_of_lt_of_le h2' (addRegex_next_le r2 _ _)⟩
    · rcases ih2 _ cur s hs with h' | ⟨h1', h2'⟩
      · exact Or.inl h'
      · exact Or.inr ⟨le_trans (addRegex_next_le r1 b cur) h1', h2'⟩
  | Star r ih => intro b cur s hs; exact Or.inl hs
  | Plus r ih =>
    intro b cur s hs
    rcases ih b cur s hs with h' | ⟨h1', h2'⟩
    · exact Or.inl h'
    · exact Or.inr ⟨h1', lt_of_lt_of_le h2' (addRegex_next_le r _ _)⟩
  | Ques r ih =>
    intro b cur s hs
    simp only [addRegex, List.mem_append] at hs
    rcases hs with hs | hs
    · exact Or.inl hs
    · rcases ih b cur s hs with h' | h'
      · exact Or.inl h'
      · exact Or.inr h'

/-- `add_regex` maps a non-empty frontier to a non-empty frontier. -/
lemma addRegex_frontier_ne_nil :
    ∀ (r : Regex) (b : NFABuilder) (cur : List Nat),
      cur ≠ [] → (addRegex b cur r).1 ≠ [] := by
  intro r
  induction r with
  | Eps => intro b cur h; exact h
  | CharSet cs => intro b cur h; exact addCharSetStates_ne_nil cs cur b h
  | Seq r1 r2 ih1 ih2 => intro b cur h; exact ih2 _ _ (ih1 b cur h)
  | Or r1 r2 ih1 ih2 =>
    intro b cur h
    simp only [addRegex]
    exact List.append_ne_nil_of_left_ne_nil (ih1 b cur h) _
  | Star r ih => intro b cur h; exact h
  | Plus r ih => intro b cur h; exact ih b cur h
  | Ques r ih =>
    intro b cur h
    simp only [addRegex]
    exact List.append_ne_nil_of_left_ne_nil h _

/-- C1. The claim says `feed(c)` consumes only non-`Epsilon` transitions and
that `Epsilon` transitions are never taken in the character-consuming step.
The code does the opposite: `NFA::step` tests every transition label with
`cs.test(c)`, and `CharSet::Epsilon.test` returns `true` for every
character, so an `Epsilon` edge consumes an input character. This theorem
evaluates the code at a failing input: for the automaton of
`Star(CharSet('a'))` (transitions `0 --a--> 1`, `1 --eps--> 0`, accepting
`{0}`), feeding `'a'` gives live set `{0, 1}`; feeding `'b'` — a character
matching no non-epsilon transition — still leaves `{0}` live, reached only
through the epsilon edge `1 --eps--> 0`, and `run("ab")` returns `true`,
although the claimed semantics would empty the live set and reject. -/
theorem c1_step_consumes_input_on_epsilon_edges :
    ((NFABuilder.build starA).feedAll ['a']).cur_states = {0, 1} ∧
    ((NFABuilder.build starA).feedAll ['a', 'b']).cur_states = {0} ∧
    ((NFABuilder.build starA).run ['a', 'b']).1 = true := by decide

/-- C2. For the automaton built from
`Seq(CharSet('a'), Seq(CharSet('b'), CharSet('c')))`, starting from a fresh
(or reset) state, `run "abc"` returns `true`, and `run ""`, `run "a"`,
`run "ab"`, `run "abcd"` each return `false`, with a reset before each. -/
theorem c2_seq_abc_exact_length_match :
    ((NFABuilder.build seqABC).run ['a', 'b', 'c']).1 = true ∧
    ((NFABuilder.build seqABC).reset.run []).1 = false ∧
    ((NFABuilder.build seqABC).reset.run ['a']).1 = false ∧
    ((NFABuilder.build seqABC).reset.run ['a', 'b']).1 = false ∧
    ((NFABuilder.build seqABC).reset.run ['a', 'b', 'c', 'd']).1 = false := by
  decide

/-- C3. For every builder state (counter and transition table), frontier and
regex `r`, building `Plus r` produces exactly the same transition table,
allocator state and returned frontier as building `Seq r (Star r)`: the
mandatory first build of `r`, then the `Star` construction on `r` applied to
the resulting exit frontier, with the loop-back epsilons into that exit
frontier. -/
theorem c3_plus_builds_as_seq_star (b : NFABuilder) (cur : List Nat) (r : Regex) :
    addRegex b cur (Regex.Plus r) = addRegex b cur (Regex.Seq r (Regex.Star r)) := rfl

/-- C4. The epsilon-closure computation (run after `reset` and after each
`feed`) terminates at a genuine fixed point for every transition table —
including tables with epsilon self-loops or mutual epsilon cycles — and its
result is the least superset of the starting live set closed under single
epsilon-labeled transitions: the start set is contained in it (no state is
ever removed), it is closed under `epsTargets`, and it is below every closed
superset of the start set. -/
theorem c4_take_epsilons_least_fixed_point (tbl : TransTable) (s : Finset Nat) :
    s ⊆ takeEpsilons tbl s ∧
    epsTargets tbl (takeEpsilons tbl s) ⊆ takeEpsilons tbl s ∧
    ∀ u : Finset Nat, s ⊆ u → epsTargets tbl u ⊆ u → takeEpsilons tbl s ⊆ u :=
  ⟨subset_takeEpsilons tbl s, takeEpsilons_closed tbl s,
    fun u h1 h2 => takeEpsilons_least tbl s u h1 h2⟩

/-- Witness for C4 on the mutual epsilon cycle `0 --eps--> 1 --eps--> 0`. -/
theorem c4_witness :
    ({0} : Finset Nat) ⊆ takeEpsilons cycT {0} ∧
    epsTargets cycT (takeEpsilons cycT {0}) ⊆ takeEpsilons cycT {0} ∧
    takeEpsilons cycT {0} ⊆ {0, 1} := by
  obtain ⟨h1, h2, h3⟩ := c4_take_epsilons_least_fixed_point cycT {0}
  exact ⟨h1, h2, h3 {0, 1} (by decide) (by decide)⟩

/-- C5. Once the live set is empty it stays empty under every subsequent
sequence of `feed` calls (each `feed` is a no-op on the empty set), and
`check_accepting` returns `false` in every such state; only `reset` can
leave this configuration. -/
theorem c5_empty_live_set_is_absorbing (n : NFA) (cs : List Char)
    (h : n.cur_states = ∅) :
    (n.feedAll cs).cur_states = ∅ ∧ (n.feedAll cs).checkAccepting = false := by
  induction cs generalizing n with
  | nil => exact ⟨h, checkAccepting_empty n h⟩
  | cons c cs ih => exact ih (n.feed c) (feed_cur_empty n c h)

/-- Witness for C5 at a concrete automaton with an empty live set. -/
theorem c5_witness :
    ((NFA.mk ∅ [(0, [(CharSet.SingleChar 'a', 1)])] {0}).feedAll ['a', 'b']).cur_states = ∅ ∧
    ((NFA.mk ∅ [(0, [(CharSet.SingleChar 'a', 1)])] {0}).feedAll ['a', 'b']).checkAccepting = false :=
  c5_empty_live_set_is_absorbing (NFA.mk ∅ [(0, [(CharSet.SingleChar 'a', 1)])] {0})
    ['a', 'b'] rfl

/-- C6. For every automaton state and character sequence, `run cs` returns
the boolean `check_accepting` of the state reached by feeding every
character of `cs` in order, and leaves the automaton in exactly that state:
`run` is the fold of `feed` followed by `check_accepting`, with no reset
before or after. -/
theorem c6_run_is_feed_each_then_check (n : NFA) (cs : List Char) :
    n.run cs = ((n.feedAll cs).checkAccepting, n.feedAll cs) := by
  induction cs generalizing n with
  | nil => rfl
  | cons c cs ih => exact ih (n.step c)

/-- C7. `reset` sets the live set to the epsilon closure of `{0}` regardless
of the prior live set (the new live set is a function of the transition
table alone), and resetting twice equals resetting once. -/
theorem c7_reset_closure_of_zero_and_idempotent (n : NFA) :
    n.reset.cur_states = takeEpsilons n.transitions {0} ∧
    n.reset.reset = n.reset :=
  ⟨rfl, rfl⟩

/-- C8. The builder allocates identifiers monotonically: `new_state` returns
the current counter and bumps it by one, `add_regex` never decreases the
counter, and every state in a returned frontier is either an input frontier
state or freshly allocated in `[b.next_state, result.next_state)` — so with
`build`'s initial counter 1, identifier 0 is never allocated. State 0 is the
initial state: it is live after the reset performed by `build`. -/
theorem c8_monotone_fresh_allocation_and_initial_state_zero :
    (∀ b : NFABuilder,
      newState b = (b.next_state, { b with next_state := b.next_state + 1 })) ∧
    (∀ (b : NFABuilder) (cur : List Nat) (r : Regex),
      b.next_state ≤ (addRegex b cur r).2.next_state) ∧
    (∀ (b : NFABuilder) (cur : List Nat) (r : Regex) (s : Nat),
      s ∈ (addRegex b cur r).1 →
        s ∈ cur ∨ (b.next_state ≤ s ∧ s < (addRegex b cur r).2.next_state)) ∧
    (∀ r : Regex, 0 ∈ (NFABuilder.build r).cur_states) :=
  ⟨fun _ => rfl,
   fun b cur r => addRegex_next_le r b cur,
   fun b cur r s hs => addRegex_frontier_range r b cur s hs,
   fun r => subset_takeEpsilons
     (addRegex (NFABuilder.mk 1 []) [0] r).2.transitions {0}
     (Finset.mem_singleton_self 0)⟩

/-- Witness for C8: the single allocation performed while building
`CharSet('a')` from frontier `[0]` with counter 1 returns identifier 1 and
leaves the counter at 2. -/
theorem c8_witness :
    newState (NFABuilder.mk 1 []) = (1, NFABuilder.mk 2 []) ∧
    (1 : Nat) ≤ (addRegex (NFABuilder.mk 1 []) [0] (Regex.CharSet (CharSet.SingleChar 'a'))).2.next_state ∧
    ((1 : Nat) ∈ [0] ∨
      (1 ≤ 1 ∧ 1 < (addRegex (NFABuilder.mk 1 []) [0] (Regex.CharSet (CharSet.SingleChar 'a'))).2.next_state)) ∧
    0 ∈ (NFABuilder.build starA).cur_states := by
  obtain ⟨h1, h2, h3, h4⟩ := c8_monotone_fresh_allocation_and_initial_state_zero
  exact ⟨h1 (NFABuilder.mk 1 []),
         h2 (NFABuilder.mk 1 []) [0] (Regex.CharSet (CharSet.SingleChar 'a')),
         h3 (NFABuilder.mk 1 []) [0] (Regex.CharSet (CharSet.SingleChar 'a')) 1 (by decide),
         h4 starA⟩

/-- C9. `CharSet::Epsilon.test(c)` returns `true` for every character, and
this branch is reachable from `feed`/`run`: in the automaton built from
`Star(CharSet('a'))`, state 1 carries exactly the transition list
`[(Epsilon, 0)]`, and the character pass of `step` on live set `{1}` with
input `'b'` yields `{0}` — the `Epsilon` label was tested against the input
character and matched. -/
theorem c9_epsilon_test_always_true_and_reachable_from_step :
    (∀ c : Char, CharSet.Epsilon.test c = true) ∧
    lookupTrans (NFABuilder.build starA).transitions 1 = some [(CharSet.Epsilon, 0)] ∧
    stepChar (NFABuilder.build starA).transitions {1} 'b' = {0} :=
  ⟨fun _ => rfl, rfl, by decide⟩

/-- C10. `add_regex` maps every non-empty frontier to a non-empty frontier,
and consequently the accepting set of the automaton `build` produces
(starting from frontier `[0]`) is non-empty for every regex. -/
theorem c10_frontier_and_accepting_nonempty :
    (∀ (b : NFABuilder) (cur : List Nat) (r : Regex),
      cur ≠ [] → (addRegex b cur r).1 ≠ []) ∧
    (∀ r : Regex, ((NFABuilder.build r).accepting).Nonempty) := by
  constructor
  · exact fun b cur r h => addRegex_frontier_ne_nil r b cur h
  · intro r
    have h : (addRegex (NFABuilder.mk 1 []) [0] r).1 ≠ [] :=
      addRegex_frontier_ne_nil r (NFABuilder.mk 1 []) [0] (by simp)
    obtain ⟨x, hx⟩ := List.exists_mem_of_ne_nil _ h
    exact ⟨x, List.mem_toFinset.mpr hx⟩

/-- Witness for C10 at the concrete regex `Star(CharSet('a'))`. -/
theorem c10_witness :
    (addRegex (NFABuilder.mk 1 []) [0] starA).1 ≠ [] ∧
    ((NFABuilder.build starA).accepting).Nonempty := by
  obtain ⟨h1, h2⟩ := c10_frontier_and_accepting_nonempty
  exact ⟨h1 (NFABuilder.mk 1 []) [0] starA (by decide), h2 starA⟩

end Notlex
